import Mathlib

/-! ShopScraper: a shallow embedding of `main.go`.

The Go program crawls a shop's category tree, correlates every listing and
"load more" response with the sub-category it belongs to, and flattens the
tree into CSV records.  This file embeds the data model and the callbacks of
`main.go` as Lean functions and proves properties of them.

Conventions of the embedding:

* a Go `string` is a list of characters (`Str`); every separator and marker the
  program uses is ASCII;
* the DOM queries of `colly`/`goquery` are external: a document is represented
  by the values those queries return (`NavBlock`, `Response`);
* a `*SubCategory` pointer is the path `(i, j)` of the sub-category in the tree;
* `log.Fatal` ends the process: functions that may call it return `Except`, and
  the response handler records the message in the field `fatal` together with
  the tree as it is at that moment.
-/

namespace ShopScraper

/-! ## Strings and the Go library functions the program calls -/

/-- Go strings, as lists of characters. -/
abbrev Str := List Char

/-- Go `strings.Index(s, substr)`: the index of the first occurrence of `substr`
in `s`; `none` stands for the result `-1`. -/
def Index : Str → Str → Option Nat
  | [], substr => if substr = [] then some 0 else none
  | c :: cs, substr =>
    if substr.isPrefixOf (c :: cs) then some 0 else (Index cs substr).map (· + 1)

/-- Go `strings.Contains(s, substr)`, which is `Index(s, substr) >= 0`. -/
def Contains (s substr : Str) : Bool := (Index s substr).isSome

/-- The loop of Go `strings.Count` for a non-empty `substr`: find the next
occurrence, count it, continue behind it.  `fuel` bounds the iterations. -/
def countLoop (substr : Str) : Nat → Str → Nat
  | 0, _ => 0
  | fuel + 1, s =>
    match Index s substr with
    | none => 0
    | some i => 1 + countLoop substr fuel (s.drop (i + substr.length))

/-- Go `strings.Count(s, substr)`: the number of non-overlapping occurrences. -/
def Count (s substr : Str) : Nat :=
  if substr = [] then s.length + 1 else countLoop substr s.length s

/-- The loop of Go `strings.genSplit`: at most `n` cuts at the first occurrence
of `sep`, the remainder is the last piece. -/
def splitLoop (sep : Str) : Nat → Str → List Str
  | 0, s => [s]
  | n + 1, s =>
    match Index s sep with
    | none => [s]
    | some m => s.take m :: splitLoop sep n (s.drop (m + sep.length))

/-- Go `strings.Split(s, sep)`, that is `genSplit(s, sep, 0, -1)`. -/
def Split (s sep : Str) : List Str :=
  if sep = [] then s.map (fun c => [c])
  else
    let n := min (Count s sep + 1) (s.length + 1)
    splitLoop sep (n - 1) s

deriving instance DecidableEq for Except

/-- The offset marker of a load-more URL. -/
def offsetMarker : Str := "&start=".toList

/-- The number of positions of `s` at which `sub` occurs. -/
def occurrences (sub : Str) : Str → Nat
  | [] => if sub.isPrefixOf [] then 1 else 0
  | c :: cs => (if sub.isPrefixOf (c :: cs) then 1 else 0) + occurrences sub cs

/-- Go `findLoadMoreUrlPrefix`: split at `"&start="`; unless that gives exactly
two parts the run is ended by `log.Fatal`, otherwise the first part is returned.
(`log.Fatal` prints its operands like `fmt.Sprint`, so the `%s` stays in the
message and `s` is appended to it.) -/
def findLoadMoreUrlPrefix (s : Str) : Except Str Str :=
  let moreResultsUrlParts := Split s offsetMarker
  if moreResultsUrlParts.length ≠ 2 then
    .error ("Couldn't parse load more url: %s".toList ++ s)
  else
    .ok (moreResultsUrlParts.headD [])

/-- Go `unicode.IsSpace`: the Latin-1 space characters and the code points
with the Unicode White_Space property. -/
def isSpace (r : Char) : Bool :=
  let n := r.toNat
  n = 0x09 || n = 0x0A || n = 0x0B || n = 0x0C || n = 0x0D || n = 0x20 || n = 0x85 || n = 0xA0
    || n = 0x1680 || (0x2000 ≤ n && n ≤ 0x200A) || n = 0x2028 || n = 0x2029 || n = 0x202F
    || n = 0x205F || n = 0x3000

/-- Go `strings.TrimSpace(s)`: `s` without its leading and trailing white space. -/
def TrimSpace (s : Str) : Str :=
  ((s.dropWhile isSpace).reverse.dropWhile isSpace).reverse

/-- The bound of a 64-bit Go `int`, whose values are `-2^63`, ..., `2^63 - 1`. -/
def intCutoff : Nat := 2 ^ 63

/-- The largest value of a Go `uint64`. -/
def uintMax : Nat := 2 ^ 64 - 1

/-- The digit loop of Go `strconv.ParseUint(s, 10, 64)`, with `n` the value read
so far: `none` is a syntax error (a character that is not a decimal digit),
`some (uintMax, false)` a range error (reported at the digit that overflows,
before the characters behind it are read), `some (n, true)` the value. -/
def parseUintLoop : Str → Nat → Option (Nat × Bool)
  | [], n => some (n, true)
  | c :: cs, n =>
    if !(48 ≤ c.toNat && c.toNat ≤ 57) then none
    else if uintMax / 10 + 1 ≤ n then some (uintMax, false)
    else if uintMax < n * 10 + (c.toNat - 48) then some (uintMax, false)
    else parseUintLoop cs (n * 10 + (c.toNat - 48))

/-- Go `strconv.Atoi(s)`: an optional sign followed by decimal digits.  The
result is the value and whether `err == nil`; a syntax error gives the value
`0`, a value out of the range of `int` gives the nearest bound. -/
def Atoi (s : Str) : Int × Bool :=
  let neg : Bool := s.head? = some '-'
  let ds : Str := if s.head? = some '-' || s.head? = some '+' then s.tail else s
  if ds = [] then (0, false)
  else
    match parseUintLoop ds 0 with
    | none => (0, false)
    | some (un, ok) =>
      if !neg && intCutoff ≤ un then ((intCutoff : Int) - 1, false)
      else if neg && intCutoff < un then (-(intCutoff : Int), false)
      else (if neg then -(un : Int) else (un : Int), ok)

/-- The verb `%d` of Go `fmt` on an `int`. -/
def fmtInt (n : Int) : Str :=
  if n < 0 then '-' :: Nat.toDigits 10 n.natAbs else Nat.toDigits 10 n.natAbs

/-- Addition of Go `int`s, wrapping around at 64 bits. -/
def addInt (a b : Int) : Int :=
  (a + b + (intCutoff : Int)) % (2 * (intCutoff : Int)) - (intCutoff : Int)

/-! ## The data model -/

/-- Go `Product`. -/
structure Product where
  Url : Str
  Name : Str
  ImgUrl : Str
  Brand : Str
  Quantity : Str
  Price : Str
  PriceUnit : Str
  PriceSecondary : Str
  PriceSecondaryUnit : Str
deriving DecidableEq, Repr

/-- Go `SubCategory`. -/
structure SubCategory where
  Name : Str
  Url : Str
  LoadMoreUrl : Str
  Products : List Product
deriving DecidableEq, Repr

/-- Go `Category`; the pointers of `SubCategories` are all distinct (each is
allocated by discovery), so the slice is a list of values. -/
structure Category where
  Name : Str
  SubCategories : List SubCategory
deriving DecidableEq, Repr

/-- The sub-category at path `(i, j)`: `categories[i].SubCategories[j]`. -/
def subAt (cats : List Category) (i j : Nat) : Option SubCategory :=
  (cats[i]?).bind (fun c => c.SubCategories[j]?)

/-- A write through the pointer `ptr` into the tree. -/
def modifySub (f : SubCategory → SubCategory) (ptr : Nat × Nat) (cats : List Category) :
    List Category :=
  cats.modify (fun c => { c with SubCategories := c.SubCategories.modify f ptr.2 }) ptr.1

/-! ## Discovery (`mainColl.OnHTML`) -/

/-- A link selected by `ul > li:not(.see-all) > a`: its text and `AttrOr("href", "")`. -/
structure NavLink where
  text : Str
  href : Str
deriving DecidableEq, Repr

/-- An element matched by `.container-dropdown-first-column > .dropdown-item`:
the text of its first `.category-info` and its selected links in document order. -/
structure NavBlock where
  categoryInfo : Str
  links : List NavLink
deriving DecidableEq, Repr

/-- The featured category that discovery skips. -/
def destaques : Str := "Destaques".toList

/-- The callback of `mainColl.OnHTML`, run on one navigation block.
`absoluteURL` is `el.Request.AbsoluteURL` of the discovery request. -/
def mainCollOnHTML (absoluteURL : Str → Str) (categories : List Category) (el : NavBlock) :
    List Category :=
  let category : Category := { Name := TrimSpace el.categoryInfo, SubCategories := [] }
  if category.Name = destaques then categories
  else
    let category := el.links.foldl
      (fun (category : Category) sel =>
        let subCategory : SubCategory :=
          { Name := TrimSpace sel.text, Url := absoluteURL sel.href, LoadMoreUrl := [],
            Products := [] }
        { category with SubCategories := category.SubCategories ++ [subCategory] })
      category
    categories ++ [category]

/-- Discovery: the callback runs on every matched block, in document order,
starting from the empty tree. -/
def discover (absoluteURL : Str → Str) (blocks : List NavBlock) : List Category :=
  blocks.foldl (mainCollOnHTML absoluteURL) []

/-! ## The response handler (`subCatColl.OnHTML`) -/

/-- An element matched by `.productTile`: the values of the nine queries that
`scrapeProductTiles` runs on it. -/
structure Tile where
  linkHref : Str
  linkText : Str
  imgDataSrc : Str
  brand : Str
  quantity : Str
  pricePrimary : Str
  pricePrimaryUnit : Str
  priceSecondary : Str
  priceSecondaryUnit : Str
deriving DecidableEq, Repr

/-- A document handed to the handler: `el.Request.URL.String()`, its product
tiles in document order, `el.ChildText(".search-results-products-counter")` and
`el.ChildAttr(".search-view-more-products-btn-wrapper", "data-url")`. -/
structure Response where
  url : Str
  tiles : List Tile
  resultsCounter : Str
  moreResultsUrl : Str
deriving DecidableEq, Repr

/-- The `Product` literal that `scrapeProductTiles` builds from one tile. -/
def tileProduct (t : Tile) : Product :=
  { Url := t.linkHref, Name := t.linkText, ImgUrl := t.imgDataSrc, Brand := t.brand,
    Quantity := t.quantity, Price := t.pricePrimary, PriceUnit := t.pricePrimaryUnit,
    PriceSecondary := t.priceSecondary, PriceSecondaryUnit := t.priceSecondaryUnit }

/-- Go `scrapeProductTiles`: the products are appended tile by tile. -/
def scrapeProductTiles (el : Response) : List Product :=
  el.tiles.foldl (fun products t => products ++ [tileProduct t]) []

/-- The marker of the load-more endpoint in a request URL. -/
def loadMoreMarker : Str := "demandware.store".toList

/-- The key `subUrl` that `Search` compares with `matchUrl`. -/
def subUrl (isScrapingLoadMore : Bool) (subc : SubCategory) : Str :=
  if isScrapingLoadMore then subc.LoadMoreUrl else subc.Url

/-- The inner loop of `Search`: the index of the first sub-category of one
category whose key equals `matchUrl`. -/
def searchSubs (isScrapingLoadMore : Bool) (matchUrl : Str) : List SubCategory → Option Nat
  | [] => none
  | subc :: rest =>
    if subUrl isScrapingLoadMore subc = matchUrl then some 0
    else (searchSubs isScrapingLoadMore matchUrl rest).map (· + 1)

/-- The loop `Search`: the path of the first sub-category, in tree order, whose
key equals `matchUrl`; `none` is the `nil` pointer. -/
def search (isScrapingLoadMore : Bool) (matchUrl : Str) : List Category → Option (Nat × Nat)
  | [] => none
  | c :: rest =>
    match searchSubs isScrapingLoadMore matchUrl c.SubCategories with
    | some j => some (0, j)
    | none => (search isScrapingLoadMore matchUrl rest).map (fun q => (q.1 + 1, q.2))

/-- The suffix of a page URL, `fmt.Sprintf("&start=%d&sz=%d", currResultsCount, pageSize)`. -/
def loadMoreSuffix (currResultsCount pageSize : Int) : Str :=
  "&start=".toList ++ fmtInt currResultsCount ++ "&sz=".toList ++ fmtInt pageSize

/-- The continuation loop `for false && currResultsCount < totalResultsCount`:
every iteration dispatches one load-more URL.  The guard is the one of the
source. -/
def visitLoop (moreResultsUrlPrefix : Str) (pageSize totalResultsCount : Int)
    (currResultsCount : Int) (visits : List Str) : List Str :=
  if (false && decide (currResultsCount < totalResultsCount)) = true then
    let suffix := loadMoreSuffix currResultsCount pageSize
    let finalUrl := moreResultsUrlPrefix ++ suffix
    visitLoop moreResultsUrlPrefix pageSize totalResultsCount
      (addInt currResultsCount pageSize) (visits ++ [finalUrl])
  else visits
termination_by 0
decreasing_by simp_all

/-- What one run of the handler leaves behind: the tree, the lines printed with
`fmt.Printf`, the URLs passed to `subCatColl.Visit`, and the message of
`log.Fatal` when the run was ended by it. -/
structure HandlerResult where
  categories : List Category
  printed : List Str
  visits : List Str
  fatal : Option Str
deriving DecidableEq, Repr

/-- The write `subCategory.Products = append(subCategory.Products, scrapeProductTiles(el)...)`. -/
def appendProducts (el : Response) (sc : SubCategory) : SubCategory :=
  { sc with Products := sc.Products ++ scrapeProductTiles el }

/-- The write `subCategory.LoadMoreUrl = moreResultsUrlPrefix`. -/
def storeLoadMoreUrl (p : Str) (sc : SubCategory) : SubCategory :=
  { sc with LoadMoreUrl := p }

/-- The callback of `subCatColl.OnHTML("html", ...)` on one response. -/
def subCatCollOnHTML (categories : List Category) (el : Response) : HandlerResult :=
  let isScrapingLoadMore := Contains el.url loadMoreMarker
  match (if isScrapingLoadMore then findLoadMoreUrlPrefix el.url else .ok el.url) with
  | .error msg => { categories := categories, printed := [], visits := [], fatal := some msg }
  | .ok matchUrl =>
    match search isScrapingLoadMore matchUrl categories with
    | none =>
      { categories := categories,
        printed := ["Couldn't find subcategory in categories\nVisiting url: ".toList
                      ++ el.url ++ "\n".toList],
        visits := [], fatal := none }
    | some subCategory =>
      let categories := modifySub (appendProducts el) subCategory categories
      if isScrapingLoadMore then
        { categories := categories, printed := [], visits := [], fatal := none }
      else
        let resultsCounterRaw := el.resultsCounter
        let resultsCounterParts := Split resultsCounterRaw " ".toList
        if resultsCounterParts.length < 3 then
          { categories := categories,
            printed := ["Couldn't parse resultsCounter: ".toList ++ resultsCounterRaw
                          ++ "\n".toList],
            visits := [], fatal := none }
        else
          let part0 := resultsCounterParts.getD 0 []
          let part2 := resultsCounterParts.getD 2 []
          let pageSize := (Atoi part0).1
          let printed0 := if (Atoi part0).2 then []
            else ["Couldn't parse resultsCounterParts[0]: ".toList ++ part0 ++ "\n".toList]
          let currResultsCount := pageSize
          let totalResultsCount := (Atoi part2).1
          let printed2 := if (Atoi part2).2 then []
            else ["Couldn't parse resultsCounterParts[2]: ".toList ++ part2 ++ "\n".toList]
          let moreResultsUrlRaw := el.moreResultsUrl
          match findLoadMoreUrlPrefix moreResultsUrlRaw with
          | .error msg =>
            { categories := categories, printed := printed0 ++ printed2, visits := [],
              fatal := some msg }
          | .ok moreResultsUrlPrefix =>
            let categories :=
              modifySub (storeLoadMoreUrl moreResultsUrlPrefix) subCategory categories
            { categories := categories, printed := printed0 ++ printed2,
              visits := visitLoop moreResultsUrlPrefix pageSize totalResultsCount
                          currResultsCount [],
              fatal := none }

/-- The handler run on a sequence of responses, one after the other, on the
tree the previous run left; a run ended by `log.Fatal` ends the sequence. -/
def handleResponses : List Category → List Response → List Category × Option Str
  | categories, [] => (categories, none)
  | categories, el :: rest =>
    match (subCatCollOnHTML categories el).fatal with
    | some msg => ((subCatCollOnHTML categories el).categories, some msg)
    | none => handleResponses (subCatCollOnHTML categories el).categories rest

/-! ## Export (`writeToCsv`) -/

/-- The header record of `writeToCsv`. -/
def csvHeader : List Str :=
  ["category_name".toList, "sub_category_name".toList, "sub_category_url".toList,
   "product_name".toList, "product_url".toList, "product_img_url".toList,
   "product_brand".toList, "product_quantity".toList, "product_price".toList,
   "product_price_unit".toList, "product_price_secondary".toList,
   "product_price_secondary_unit".toList]

/-- The record `writeToCsv` builds for one product. -/
def csvRecord (cat : Category) (subCat : SubCategory) (prod : Product) : List Str :=
  [cat.Name, subCat.Name, subCat.Url, prod.Name, prod.Url, prod.ImgUrl, prod.Brand,
   prod.Quantity, prod.Price, prod.PriceUnit, prod.PriceSecondary, prod.PriceSecondaryUnit]

/-- Go `writeToCsv`: the records passed to `w.Write`, in order; the writer is
the state threaded through the three loops. -/
def writeToCsv (cats : List Category) : List (List Str) :=
  let w : List (List Str) := [csvHeader]
  cats.foldl
    (fun w cat =>
      cat.SubCategories.foldl
        (fun w subCat =>
          subCat.Products.foldl (fun w prod => w ++ [csvRecord cat subCat prod]) w)
        w)
    w

/-! ## Reference definitions for the statements -/

/-- The rows of the tree in depth-first order Category, SubCategory, Product:
one record per product, built from the product and its owners. -/
def dataRows (cats : List Category) : List (List Str) :=
  cats.flatMap (fun cat =>
    cat.SubCategories.flatMap (fun subCat =>
      subCat.Products.map (fun prod => csvRecord cat subCat prod)))

/-- The sum, over all sub-categories, of the lengths of their product lists. -/
def productCount (cats : List Category) : Nat :=
  (cats.map (fun cat => (cat.SubCategories.map (fun subCat => subCat.Products.length)).sum)).sum

/-- The sub-category discovery creates for a link. -/
def linkSubCategory (absoluteURL : Str → Str) (sel : NavLink) : SubCategory :=
  { Name := TrimSpace sel.text, Url := absoluteURL sel.href, LoadMoreUrl := [], Products := [] }

/-- The category discovery creates for a block. -/
def blockCategory (absoluteURL : Str → Str) (el : NavBlock) : Category :=
  { Name := TrimSpace el.categoryInfo,
    SubCategories := el.links.map (linkSubCategory absoluteURL) }

/-! ## Concrete inputs -/

/-- A sub-category as discovery leaves it. -/
def demoRolls : SubCategory :=
  { Name := "Rolls".toList, Url := "https://shop/rolls".toList, LoadMoreUrl := [],
    Products := [] }

/-- A second sub-category as discovery leaves it. -/
def demoBuns : SubCategory :=
  { Name := "Buns".toList, Url := "https://shop/buns".toList, LoadMoreUrl := [],
    Products := [] }

/-- A tree with one category and two sub-categories. -/
def demoTree : List Category :=
  [{ Name := "Bread".toList, SubCategories := [demoRolls, demoBuns] }]

/-- A product tile. -/
def demoTile : Tile :=
  { linkHref := "/p/1".toList, linkText := "Roll".toList, imgDataSrc := [], brand := [],
    quantity := [], pricePrimary := "1,00".toList, pricePrimaryUnit := [],
    priceSecondary := [], priceSecondaryUnit := [] }

/-- The prefix of the load-more URL of the demo pages. -/
def demoPrefix : Str := "https://shop/demandware.store/more?cgid=bread".toList

/-- The listing response of `demoRolls`: one tile, 24 of 120 results, a
load-more URL. -/
def demoListing : Response :=
  { url := "https://shop/rolls".toList, tiles := [demoTile],
    resultsCounter := "24 of 120 results".toList,
    moreResultsUrl := "https://shop/demandware.store/more?cgid=bread&start=24&sz=24".toList }

/-- The listing response of `demoBuns`, with the same load-more URL. -/
def demoListingBuns : Response :=
  { url := "https://shop/buns".toList, tiles := [],
    resultsCounter := "24 of 120 results".toList,
    moreResultsUrl := "https://shop/demandware.store/more?cgid=bread&start=24&sz=24".toList }

/-- A load-more response for the prefix `demoPrefix`. -/
def demoLoadMore : Response :=
  { url := "https://shop/demandware.store/more?cgid=bread&start=24&sz=24".toList,
    tiles := [demoTile], resultsCounter := [], moreResultsUrl := [] }

/-- The demo tree after the listing response of `demoRolls`. -/
def demoTreeStored : List Category :=
  [{ Name := "Bread".toList,
     SubCategories := [{ demoRolls with LoadMoreUrl := demoPrefix,
                                        Products := [tileProduct demoTile] }, demoBuns] }]

/-- The demo tree after the listing responses of both sub-categories: both
store the same load-more prefix. -/
def demoTreeShared : List Category :=
  [{ Name := "Bread".toList,
     SubCategories := [{ demoRolls with LoadMoreUrl := demoPrefix,
                                        Products := [tileProduct demoTile] },
                       { demoBuns with LoadMoreUrl := demoPrefix }] }]

/-! ## Lemmas on the string functions -/

theorem visitLoop_eq (p : Str) (pageSize total curr : Int) (visits : List Str) :
    visitLoop p pageSize total curr visits = visits := by
  rw [visitLoop]; simp

theorem isPrefixOf_nil_right (sub : Str) (h : sub ≠ []) : sub.isPrefixOf [] = false := by
  cases sub with
  | nil => exact absurd rfl h
  | cons a l => rfl

theorem Index_none_imp (sub : Str) : ∀ s : Str, Index s sub = none → occurrences sub s = 0
  | [], h => by
    have hsub : sub ≠ [] := by
      intro h0
      simp [Index, h0] at h
    simp [occurrences, isPrefixOf_nil_right sub hsub]
  | c :: cs, h => by
    by_cases hp : sub.isPrefixOf (c :: cs) = true
    · simp [Index, hp] at h
    · have hcs : Index cs sub = none := by
        simpa [Index, hp] using h
      simp [occurrences, hp, Index_none_imp sub cs hcs]

theorem Index_some_bound (sub : Str) :
    ∀ (s : Str) (m : Nat), Index s sub = some m → m + sub.length ≤ s.length
  | [], m, h => by
    by_cases h0 : sub = []
    · simp [Index, h0] at h
      simp [h0, ← h]
    · simp [Index, h0] at h
  | c :: cs, m, h => by
    by_cases hp : sub.isPrefixOf (c :: cs) = true
    · have hm : m = 0 := by
        simp [Index, hp] at h
        exact h.symm
      have hle := (List.isPrefixOf_iff_prefix.mp hp).length_le
      omega
    · simp only [Index, hp] at h
      cases hcs : Index cs sub with
      | none => simp [hcs] at h
      | some k =>
        simp [hcs] at h
        have := Index_some_bound sub cs k hcs
        simp only [List.length_cons]
        omega

/-- The fuel `s.length` of `Count` is enough: more fuel gives the same count. -/
theorem countLoop_fuel (sub : Str) (hsub : sub ≠ []) :
    ∀ (f1 f2 : Nat) (s : Str), s.length ≤ f1 → s.length ≤ f2 →
      countLoop sub f1 s = countLoop sub f2 s
  | 0, 0, _, _, _ => rfl
  | 0, f2 + 1, s, h1, _ => by
    have hs : s = [] := List.length_eq_zero.mp (Nat.le_zero.mp h1)
    subst hs
    simp [countLoop, Index, hsub]
  | f1 + 1, 0, s, _, h2 => by
    have hs : s = [] := List.length_eq_zero.mp (Nat.le_zero.mp h2)
    subst hs
    simp [countLoop, Index, hsub]
  | f1 + 1, f2 + 1, s, h1, h2 => by
    simp only [countLoop]
    cases hi : Index s sub with
    | none => rfl
    | some i =>
      have hb := Index_some_bound sub s i hi
      have hpos : 0 < sub.length := List.length_pos.mpr hsub
      have hd : (s.drop (i + sub.length)).length ≤ s.length - 1 := by
        rw [List.length_drop]
        omega
      simp only
      rw [countLoop_fuel sub hsub f1 f2 _ (by omega) (by omega)]

theorem Index_some_split (sub : Str) :
    ∀ (s : Str) (m : Nat), Index s sub = some m →
      s = s.take m ++ sub ++ s.drop (m + sub.length)
  | [], m, h => by
    by_cases h0 : sub = []
    · simp [h0]
    · simp [Index, h0] at h
  | c :: cs, m, h => by
    by_cases hp : sub.isPrefixOf (c :: cs) = true
    · have hm : m = 0 := by
        simp [Index, hp] at h
        exact h.symm
      obtain ⟨t, ht⟩ := List.isPrefixOf_iff_prefix.mp hp
      subst hm
      rw [← ht]
      simp
    · simp only [Index, hp] at h
      cases hcs : Index cs sub with
      | none => simp [hcs] at h
      | some k =>
        simp [hcs] at h
        subst h
        have ih := Index_some_split sub cs k hcs
        simp only [List.take_succ_cons, List.cons_append, Nat.add_right_comm k 1 sub.length,
          List.drop_succ_cons]
        exact congrArg (c :: ·) ih

theorem Index_some_take (sub : Str) (hsub : sub ≠ []) :
    ∀ (s : Str) (m : Nat), Index s sub = some m → occurrences sub (s.take m) = 0
  | [], m, h => by simp [occurrences, isPrefixOf_nil_right sub hsub]
  | c :: cs, m, h => by
    by_cases hp : sub.isPrefixOf (c :: cs) = true
    · have hm : m = 0 := by
        simp [Index, hp] at h
        exact h.symm
      simp [hm, occurrences, isPrefixOf_nil_right sub hsub]
    · simp only [Index, hp] at h
      cases hcs : Index cs sub with
      | none => simp [hcs] at h
      | some k =>
        simp [hcs] at h
        subst h
        have ih := Index_some_take sub hsub cs k hcs
        have hq : sub.isPrefixOf (c :: cs.take k) = false := by
          cases hq : sub.isPrefixOf (c :: cs.take k) with
          | false => rfl
          | true =>
            exfalso
            apply hp
            have h1 : sub <+: c :: cs.take k := List.isPrefixOf_iff_prefix.mp hq
            have h2 : c :: cs.take k <+: c :: cs :=
              (List.prefix_cons_inj c).mpr (List.take_prefix k cs)
            exact List.isPrefixOf_iff_prefix.mpr (h1.trans h2)
        simp [occurrences, hq, ih]

theorem Index_some_drop (sub : Str) :
    ∀ (s : Str) (m : Nat), Index s sub = some m →
      occurrences sub s = occurrences sub (s.drop m)
  | [], m, h => by simp
  | c :: cs, m, h => by
    by_cases hp : sub.isPrefixOf (c :: cs) = true
    · have hm : m = 0 := by
        simp [Index, hp] at h
        exact h.symm
      simp [hm]
    · simp only [Index, hp] at h
      cases hcs : Index cs sub with
      | none => simp [hcs] at h
      | some k =>
        simp [hcs] at h
        subst h
        simp [occurrences, hp, Index_some_drop sub cs k hcs]

/-! ## The offset marker and `findLoadMoreUrlPrefix` -/

theorem offsetMarker_eq : offsetMarker = ['&', 's', 't', 'a', 'r', 't', '='] := by decide

theorem offsetMarker_ne_nil : offsetMarker ≠ [] := by decide

theorem offsetMarker_length : offsetMarker.length = 7 := by decide

/-- The marker does not overlap itself: behind an occurrence, the next one
starts after its last character at the earliest. -/
theorem occurrences_marker_append (t : Str) :
    occurrences offsetMarker (offsetMarker ++ t) = 1 + occurrences offsetMarker t := by
  rw [offsetMarker_eq]
  simp [occurrences, List.isPrefixOf]

theorem occurrences_of_Index_some (s : Str) (m : Nat) (h : Index s offsetMarker = some m) :
    occurrences offsetMarker s = 1 + occurrences offsetMarker (s.drop (m + 7)) := by
  have hb := Index_some_bound offsetMarker s m h
  have hs := Index_some_split offsetMarker s m h
  rw [offsetMarker_length] at hb hs
  have hd : s.drop m = offsetMarker ++ s.drop (m + 7) := by
    have h1 : (s.take m).length = m := by
      rw [List.length_take]; omega
    have h2 := congrArg (List.drop m) hs
    rw [List.append_assoc, List.drop_left' h1] at h2
    exact h2
  rw [Index_some_drop offsetMarker s m h, hd, occurrences_marker_append]

theorem splitLoop_length_pos (sep : Str) (n : Nat) (s : Str) :
    1 ≤ (splitLoop sep n s).length := by
  cases n with
  | zero => simp [splitLoop]
  | succ n =>
    simp only [splitLoop]
    split <;> simp

theorem Split_of_Index_none (s : Str) (h : Index s offsetMarker = none) :
    Split s offsetMarker = [s] := by
  have hc : countLoop offsetMarker s.length s = 0 := by
    cases hl : s.length with
    | zero => rfl
    | succ f => simp [countLoop, h]
  simp [Split, offsetMarker_ne_nil, Count, hc, splitLoop]

theorem Split_of_Index_once (s : Str) (m : Nat) (h : Index s offsetMarker = some m)
    (h2 : Index (s.drop (m + 7)) offsetMarker = none) :
    Split s offsetMarker = [s.take m, s.drop (m + 7)] := by
  have hb := Index_some_bound offsetMarker s m h
  rw [offsetMarker_length] at hb
  obtain ⟨f, hf⟩ : ∃ f, s.length = f + 1 := ⟨s.length - 1, by omega⟩
  have hc0 : countLoop offsetMarker f (s.drop (m + 7)) = 0 := by
    cases f with
    | zero => rfl
    | succ f => simp [countLoop, h2]
  have hc : countLoop offsetMarker s.length s = 1 := by
    rw [hf]
    simp [countLoop, h, offsetMarker_length, hc0]
  have hn : min (Count s offsetMarker + 1) (s.length + 1) - 1 = 1 := by
    simp only [Count, offsetMarker_ne_nil, if_false, hc]
    omega
  simp only [Split, offsetMarker_ne_nil, if_false]
  rw [hn]
  simp [splitLoop, h, h2, offsetMarker_length]

theorem Split_of_Index_twice (s : Str) (m m2 : Nat) (h : Index s offsetMarker = some m)
    (h2 : Index (s.drop (m + 7)) offsetMarker = some m2) :
    3 ≤ (Split s offsetMarker).length := by
  have hb := Index_some_bound offsetMarker s m h
  have hb2 := Index_some_bound offsetMarker _ m2 h2
  rw [offsetMarker_length] at hb hb2
  rw [List.length_drop] at hb2
  obtain ⟨f, hf⟩ : ∃ f, s.length = f + 2 := ⟨s.length - 2, by omega⟩
  have hc : 2 ≤ countLoop offsetMarker s.length s := by
    rw [hf]
    simp only [countLoop, h, h2, offsetMarker_length]
    omega
  obtain ⟨k, hk⟩ : ∃ k, min (Count s offsetMarker + 1) (s.length + 1) - 1 = k + 2 := by
    refine ⟨min (Count s offsetMarker + 1) (s.length + 1) - 3, ?_⟩
    simp only [Count, offsetMarker_ne_nil, if_false]
    omega
  simp only [Split, offsetMarker_ne_nil, if_false]
  rw [hk]
  have hpos := splitLoop_length_pos offsetMarker k (s.drop (m + 7 + (m2 + 7)))
  simp [splitLoop, h, h2, offsetMarker_length]
  exact hpos

/-- The three cases of `findLoadMoreUrlPrefix`, by the number of markers. -/
theorem findLoadMoreUrlPrefix_cases (s : Str) :
    (occurrences offsetMarker s ≠ 1 ∧
      findLoadMoreUrlPrefix s = .error ("Couldn't parse load more url: %s".toList ++ s)) ∨
    (occurrences offsetMarker s = 1 ∧
      ∃ p rest, findLoadMoreUrlPrefix s = .ok p ∧ s = p ++ offsetMarker ++ rest ∧
        occurrences offsetMarker p = 0 ∧ occurrences offsetMarker rest = 0) := by
  cases h : Index s offsetMarker with
  | none =>
    left
    refine ⟨?_, ?_⟩
    · rw [Index_none_imp offsetMarker s h]; decide
    · simp [findLoadMoreUrlPrefix, Split_of_Index_none s h]
  | some m =>
    have hocc := occurrences_of_Index_some s m h
    cases h2 : Index (s.drop (m + 7)) offsetMarker with
    | none =>
      right
      have hrest := Index_none_imp offsetMarker _ h2
      refine ⟨by rw [hocc, hrest], s.take m, s.drop (m + 7), ?_, ?_, ?_, hrest⟩
      · simp [findLoadMoreUrlPrefix, Split_of_Index_once s m h h2]
      · have := Index_some_split offsetMarker s m h
        rwa [offsetMarker_length] at this
      · exact Index_some_take offsetMarker offsetMarker_ne_nil s m h
    | some m2 =>
      left
      have hocc2 := occurrences_of_Index_some _ m2 h2
      have hlen := Split_of_Index_twice s m m2 h h2
      refine ⟨by omega, ?_⟩
      have hne : (Split s offsetMarker).length ≠ 2 := by omega
      simp [findLoadMoreUrlPrefix, hne]

/-! ## Lemmas on the tree -/

theorem scrapeProductTiles_eq_map (el : Response) :
    scrapeProductTiles el = el.tiles.map tileProduct := by
  have key : ∀ (ts : List Tile) (acc : List Product),
      ts.foldl (fun products t => products ++ [tileProduct t]) acc
        = acc ++ ts.map tileProduct := by
    intro ts
    induction ts with
    | nil => intro acc; simp
    | cons t ts ih => intro acc; simp [ih]
  simpa [scrapeProductTiles] using key el.tiles []

theorem subAt_modifySub (f : SubCategory → SubCategory) (ptr : Nat × Nat)
    (cats : List Category) (i j : Nat) :
    subAt (modifySub f ptr cats) i j
      = if (i, j) = ptr then (subAt cats i j).map f else subAt cats i j := by
  obtain ⟨pi, pj⟩ := ptr
  simp only [subAt, modifySub, List.getElem?_modify, Prod.mk.injEq]
  cases hc : cats[i]? with
  | none => simp
  | some c =>
    by_cases hi : pi = i
    · subst hi
      simp only [Option.map_eq_map, Option.map_some', if_true, Option.some_bind,
        List.getElem?_modify, true_and]
      cases hs : c.SubCategories[j]? with
      | none => simp
      | some S =>
        by_cases hj : pj = j
        · simp [hj]
        · have hj2 : ¬ j = pj := fun h => hj h.symm
          simp [hj, hj2]
    · have hi2 : ¬ i = pi := fun h => hi h.symm
      simp [hi, hi2]

theorem subAt_cons_zero (c : Category) (cats : List Category) (j : Nat) :
    subAt (c :: cats) 0 j = c.SubCategories[j]? := by
  simp [subAt]

theorem subAt_cons_succ (c : Category) (cats : List Category) (i j : Nat) :
    subAt (c :: cats) (i + 1) j = subAt cats i j := by
  simp [subAt]

theorem searchSubs_none (b : Bool) (key : Str) :
    ∀ subs : List SubCategory, searchSubs b key subs = none →
      ∀ (j : Nat) (S : SubCategory), subs[j]? = some S → subUrl b S ≠ key
  | [], _, j, S, hS => by simp at hS
  | subc :: rest, h, j, S, hS => by
    by_cases hk : subUrl b subc = key
    · simp [searchSubs, hk] at h
    · have hr : searchSubs b key rest = none := by
        simpa [searchSubs, hk] using h
      cases j with
      | zero =>
        simp at hS
        subst hS
        exact hk
      | succ j =>
        simp at hS
        exact searchSubs_none b key rest hr j S hS

theorem searchSubs_some (b : Bool) (key : Str) :
    ∀ (subs : List SubCategory) (j : Nat), searchSubs b key subs = some j →
      (∃ S, subs[j]? = some S ∧ subUrl b S = key) ∧
      ∀ (j2 : Nat) (S2 : SubCategory), j2 < j → subs[j2]? = some S2 → subUrl b S2 ≠ key
  | [], j, h => by simp [searchSubs] at h
  | subc :: rest, j, h => by
    by_cases hk : subUrl b subc = key
    · have hj : j = 0 := by
        simp [searchSubs, hk] at h
        exact h.symm
      subst hj
      exact ⟨⟨subc, by simp, hk⟩, fun j2 S2 hlt => absurd hlt (Nat.not_lt_zero _)⟩
    · simp only [searchSubs, hk, if_false] at h
      cases hr : searchSubs b key rest with
      | none => simp [hr] at h
      | some k =>
        simp [hr] at h
        subst h
        obtain ⟨⟨S, hS, hSk⟩, hmin⟩ := searchSubs_some b key rest k hr
        refine ⟨⟨S, by simpa using hS, hSk⟩, ?_⟩
        intro j2 S2 hlt hS2
        cases j2 with
        | zero =>
          simp at hS2
          subst hS2
          exact hk
        | succ j2 =>
          simp at hS2
          exact hmin j2 S2 (by omega) hS2

theorem search_none (b : Bool) (key : Str) :
    ∀ cats : List Category, search b key cats = none →
      ∀ i j S, subAt cats i j = some S → subUrl b S ≠ key
  | [], _, i, j, S, hS => by simp [subAt] at hS
  | c :: rest, h, i, j, S, hS => by
    cases hc : searchSubs b key c.SubCategories with
    | some k => simp [search, hc] at h
    | none =>
      have hr : search b key rest = none := by
        simpa [search, hc] using h
      cases i with
      | zero =>
        rw [subAt_cons_zero] at hS
        exact searchSubs_none b key _ hc j S hS
      | succ i =>
        rw [subAt_cons_succ] at hS
        exact search_none b key rest hr i j S hS

theorem search_some (b : Bool) (key : Str) :
    ∀ (cats : List Category) (i j : Nat), search b key cats = some (i, j) →
      (∃ S, subAt cats i j = some S ∧ subUrl b S = key) ∧
      ∀ i2 j2 S2, (i2 < i ∨ (i2 = i ∧ j2 < j)) → subAt cats i2 j2 = some S2 →
        subUrl b S2 ≠ key
  | [], i, j, h => by simp [search] at h
  | c :: rest, i, j, h => by
    cases hc : searchSubs b key c.SubCategories with
    | some k =>
      have hij : i = 0 ∧ j = k := by
        simp [search, hc] at h
        exact ⟨h.1.symm, h.2.symm⟩
      obtain ⟨hi, hj⟩ := hij
      subst hi hj
      obtain ⟨⟨S, hS, hSk⟩, hmin⟩ := searchSubs_some b key _ j hc
      refine ⟨⟨S, by rw [subAt_cons_zero]; exact hS, hSk⟩, ?_⟩
      intro i2 j2 S2 hlt hS2
      rcases hlt with hlt | ⟨hi2, hlt⟩
      · exact absurd hlt (Nat.not_lt_zero _)
      · subst hi2
        rw [subAt_cons_zero] at hS2
        exact hmin j2 S2 hlt hS2
    | none =>
      simp only [search, hc] at h
      cases hr : search b key rest with
      | none => simp [hr] at h
      | some q =>
        obtain ⟨qi, qj⟩ := q
        simp [hr] at h
        obtain ⟨hi, hj⟩ := h
        subst hi hj
        obtain ⟨⟨S, hS, hSk⟩, hmin⟩ := search_some b key rest qi qj hr
        refine ⟨⟨S, by rw [subAt_cons_succ]; exact hS, hSk⟩, ?_⟩
        intro i2 j2 S2 hlt hS2
        cases i2 with
        | zero =>
          rw [subAt_cons_zero] at hS2
          exact searchSubs_none b key _ hc j2 S2 hS2
        | succ i2 =>
          rw [subAt_cons_succ] at hS2
          refine hmin i2 j2 S2 ?_ hS2
          rcases hlt with hlt | ⟨hi2, hlt⟩
          · left; omega
          · right; exact ⟨by omega, hlt⟩

/-- The search finds the first sub-category, in tree order, with the key. -/
theorem search_first (b : Bool) (key : Str) (cats : List Category) (i j : Nat)
    (S : SubCategory) (hS : subAt cats i j = some S) (hkey : subUrl b S = key)
    (hmin : ∀ i2 j2 S2, (i2 < i ∨ (i2 = i ∧ j2 < j)) → subAt cats i2 j2 = some S2 →
      subUrl b S2 ≠ key) :
    search b key cats = some (i, j) := by
  cases hr : search b key cats with
  | none => exact absurd hkey (search_none b key cats hr i j S hS)
  | some q =>
    obtain ⟨qi, qj⟩ := q
    obtain ⟨⟨T, hT, hTk⟩, hqmin⟩ := search_some b key cats qi qj hr
    rcases Nat.lt_trichotomy qi i with h | h | h
    · exact absurd hTk (hmin qi qj T (Or.inl h) hT)
    · subst h
      rcases Nat.lt_trichotomy qj j with h | h | h
      · exact absurd hTk (hmin qi qj T (Or.inr ⟨rfl, h⟩) hT)
      · subst h; rfl
      · exact absurd hkey (hqmin qi j S (Or.inr ⟨rfl, h⟩) hS)
    · exact absurd hkey (hqmin i j S (Or.inl h) hS)

/-! ## The cases of the response handler -/

theorem handler_key_fatal (cats : List Category) (el : Response) (msg : Str)
    (hkind : Contains el.url loadMoreMarker = true)
    (hkey : findLoadMoreUrlPrefix el.url = .error msg) :
    subCatCollOnHTML cats el
      = { categories := cats, printed := [], visits := [], fatal := some msg } := by
  simp only [subCatCollOnHTML, hkind, hkey, if_true]

theorem handler_unmatched (cats : List Category) (el : Response) (key : Str)
    (hkey : (if Contains el.url loadMoreMarker = true then findLoadMoreUrlPrefix el.url
              else .ok el.url) = .ok key)
    (hs : search (Contains el.url loadMoreMarker) key cats = none) :
    subCatCollOnHTML cats el
      = { categories := cats,
          printed := ["Couldn't find subcategory in categories\nVisiting url: ".toList
                        ++ el.url ++ "\n".toList],
          visits := [], fatal := none } := by
  simp only [subCatCollOnHTML, hkey, hs]

theorem handler_loadMore_matched (cats : List Category) (el : Response) (key : Str)
    (ptr : Nat × Nat) (hkind : Contains el.url loadMoreMarker = true)
    (hkey : findLoadMoreUrlPrefix el.url = .ok key)
    (hs : search true key cats = some ptr) :
    subCatCollOnHTML cats el
      = { categories := modifySub (appendProducts el) ptr cats, printed := [], visits := [],
          fatal := none } := by
  simp only [subCatCollOnHTML, hkind, hkey, hs, if_true]

theorem handler_listing_short (cats : List Category) (el : Response) (ptr : Nat × Nat)
    (hkind : Contains el.url loadMoreMarker = false)
    (hs : search false el.url cats = some ptr)
    (hlen : (Split el.resultsCounter " ".toList).length < 3) :
    subCatCollOnHTML cats el
      = { categories := modifySub (appendProducts el) ptr cats,
          printed := ["Couldn't parse resultsCounter: ".toList ++ el.resultsCounter
                        ++ "\n".toList],
          visits := [], fatal := none } := by
  simp only [subCatCollOnHTML, hkind, hs, hlen, if_true, if_false, Bool.false_eq_true]

theorem handler_listing_fatal (cats : List Category) (el : Response) (ptr : Nat × Nat)
    (msg : Str) (hkind : Contains el.url loadMoreMarker = false)
    (hs : search false el.url cats = some ptr)
    (hlen : ¬ (Split el.resultsCounter " ".toList).length < 3)
    (hmore : findLoadMoreUrlPrefix el.moreResultsUrl = .error msg) :
    (subCatCollOnHTML cats el).categories = modifySub (appendProducts el) ptr cats ∧
    (subCatCollOnHTML cats el).visits = [] ∧
    (subCatCollOnHTML cats el).fatal = some msg := by
  simp only [subCatCollOnHTML, hkind, hs, hlen, hmore, if_true, if_false, Bool.false_eq_true,
    and_self]

theorem handler_listing_stored (cats : List Category) (el : Response) (ptr : Nat × Nat)
    (p : Str) (hkind : Contains el.url loadMoreMarker = false)
    (hs : search false el.url cats = some ptr)
    (hlen : ¬ (Split el.resultsCounter " ".toList).length < 3)
    (hmore : findLoadMoreUrlPrefix el.moreResultsUrl = .ok p) :
    (subCatCollOnHTML cats el).categories
      = modifySub (storeLoadMoreUrl p) ptr (modifySub (appendProducts el) ptr cats) ∧
    (subCatCollOnHTML cats el).visits = [] ∧
    (subCatCollOnHTML cats el).fatal = none := by
  simp only [subCatCollOnHTML, hkind, hs, hlen, hmore, if_true, if_false, Bool.false_eq_true,
    visitLoop_eq, and_self]

/-- A matched listing response rewrites the matched sub-category only: its
products are extended, its name and URL are kept. -/
theorem handler_listing_subAt (cats : List Category) (el : Response) (ptr : Nat × Nat)
    (hkind : Contains el.url loadMoreMarker = false)
    (hs : search false el.url cats = some ptr) :
    ∃ g : SubCategory → SubCategory,
      (∀ T, (g T).Products = T.Products ++ scrapeProductTiles el ∧ (g T).Name = T.Name ∧
        (g T).Url = T.Url) ∧
      ∀ i j, subAt (subCatCollOnHTML cats el).categories i j
        = if (i, j) = ptr then (subAt cats i j).map g else subAt cats i j := by
  by_cases hlen : (Split el.resultsCounter " ".toList).length < 3
  · refine ⟨appendProducts el, fun T => ⟨rfl, rfl, rfl⟩, fun i j => ?_⟩
    rw [handler_listing_short cats el ptr hkind hs hlen]
    exact subAt_modifySub _ _ _ _ _
  · cases hmore : findLoadMoreUrlPrefix el.moreResultsUrl with
    | error msg =>
      refine ⟨appendProducts el, fun T => ⟨rfl, rfl, rfl⟩, fun i j => ?_⟩
      rw [(handler_listing_fatal cats el ptr msg hkind hs hlen hmore).1]
      exact subAt_modifySub _ _ _ _ _
    | ok p =>
      refine ⟨fun T => storeLoadMoreUrl p (appendProducts el T),
        fun T => ⟨rfl, rfl, rfl⟩, fun i j => ?_⟩
      rw [(handler_listing_stored cats el ptr p hkind hs hlen hmore).1,
        subAt_modifySub, subAt_modifySub]
      by_cases hij : (i, j) = ptr
      · simp only [hij, if_true, Option.map_map]
        rfl
      · simp only [hij, if_false]

/-! ## Lemmas on export and discovery -/

theorem foldl_products (cat : Category) (subCat : SubCategory) :
    ∀ (prods : List Product) (w : List (List Str)),
      prods.foldl (fun w prod => w ++ [csvRecord cat subCat prod]) w
        = w ++ prods.map (fun prod => csvRecord cat subCat prod)
  | [], w => by simp
  | prod :: prods, w => by simp [foldl_products cat subCat prods]

theorem foldl_subCategories (cat : Category) :
    ∀ (subs : List SubCategory) (w : List (List Str)),
      subs.foldl
          (fun w subCat =>
            subCat.Products.foldl (fun w prod => w ++ [csvRecord cat subCat prod]) w) w
        = w ++ subs.flatMap (fun subCat =>
            subCat.Products.map (fun prod => csvRecord cat subCat prod))
  | [], w => by simp
  | subCat :: subs, w => by
    rw [List.foldl_cons, foldl_subCategories cat subs, foldl_products]
    simp

theorem foldl_categories :
    ∀ (cats : List Category) (w : List (List Str)),
      cats.foldl
          (fun w cat =>
            cat.SubCategories.foldl
              (fun w subCat =>
                subCat.Products.foldl (fun w prod => w ++ [csvRecord cat subCat prod]) w)
              w) w
        = w ++ dataRows cats
  | [], w => by simp [dataRows]
  | cat :: cats, w => by
    rw [List.foldl_cons, foldl_categories cats, foldl_subCategories]
    simp [dataRows]

theorem length_dataRows : ∀ cats : List Category, (dataRows cats).length = productCount cats
  | [] => rfl
  | cat :: cats => by
    have ih := length_dataRows cats
    have hsub : ∀ subs : List SubCategory,
        (subs.flatMap (fun subCat =>
          subCat.Products.map (fun prod => csvRecord cat subCat prod))).length
          = (subs.map (fun subCat => subCat.Products.length)).sum := by
      intro subs
      induction subs with
      | nil => rfl
      | cons a l ihl => simp [ihl]
    simp only [dataRows, productCount] at ih ⊢
    simp [hsub, ih]

theorem TrimSpace_idempotent (s : Str) : TrimSpace (TrimSpace s) = TrimSpace s := by
  have hdef : ∀ t : Str, TrimSpace t = List.rdropWhile isSpace (t.dropWhile isSpace) :=
    fun _ => rfl
  have hhead : ∀ t : Str, t = TrimSpace s → t.dropWhile isSpace = t := by
    intro t ht
    cases t with
    | nil => rfl
    | cons a t =>
      obtain ⟨r, hr⟩ : TrimSpace s <+: s.dropWhile isSpace := by
        rw [hdef]
        exact List.rdropWhile_prefix isSpace _
      rw [← ht] at hr
      have hne : s.dropWhile isSpace ≠ [] := by
        rw [← hr]
        simp
      have hnot := List.head_dropWhile_not isSpace s hne
      have hhd : (s.dropWhile isSpace).head hne = a := by
        simp [← hr]
      rw [hhd] at hnot
      simp [List.dropWhile, hnot]
  rw [hdef (TrimSpace s), hhead _ rfl, hdef s, List.rdropWhile_idempotent]

theorem foldl_links (absoluteURL : Str → Str) :
    ∀ (links : List NavLink) (category : Category),
      links.foldl
          (fun (category : Category) sel =>
            let subCategory : SubCategory :=
              { Name := TrimSpace sel.text, Url := absoluteURL sel.href, LoadMoreUrl := [],
                Products := [] }
            { category with SubCategories := category.SubCategories ++ [subCategory] })
          category
        = { category with
            SubCategories := category.SubCategories ++ links.map (linkSubCategory absoluteURL) }
  | [], category => by simp
  | sel :: links, category => by
    simp [foldl_links absoluteURL links, linkSubCategory]

theorem mainCollOnHTML_eq (absoluteURL : Str → Str) (categories : List Category)
    (el : NavBlock) :
    mainCollOnHTML absoluteURL categories el
      = if TrimSpace el.categoryInfo = destaques then categories
        else categories ++ [blockCategory absoluteURL el] := by
  simp only [mainCollOnHTML, foldl_links, blockCategory, List.nil_append]

theorem foldl_mainCollOnHTML (absoluteURL : Str → Str) :
    ∀ (blocks : List NavBlock) (categories : List Category),
      blocks.foldl (mainCollOnHTML absoluteURL) categories
        = categories ++
            (blocks.filter (fun el => decide (TrimSpace el.categoryInfo ≠ destaques))).map
              (blockCategory absoluteURL)
  | [], categories => by simp
  | el :: blocks, categories => by
    rw [List.foldl_cons, foldl_mainCollOnHTML absoluteURL blocks, mainCollOnHTML_eq]
    by_cases h : TrimSpace el.categoryInfo = destaques
    · simp [h]
    · simp [h]

/-- The handler dispatches no fetch, whatever the response. -/
theorem handler_visits_nil (cats : List Category) (el : Response) :
    (subCatCollOnHTML cats el).visits = [] := by
  simp only [subCatCollOnHTML]
  repeat' split
  all_goals simp only [visitLoop_eq]

/-- What a run of the handler does to the tree: nothing, or one rewrite of the
sub-category at the matched path that keeps its name and URL; a load-more
response keeps its load-more prefix too, and a listing response rewrites the
path found by the search for its URL. -/
theorem handler_subAt_cases (cats : List Category) (el : Response) :
    (∀ i j, subAt (subCatCollOnHTML cats el).categories i j = subAt cats i j) ∨
    ∃ (ptr : Nat × Nat) (g : SubCategory → SubCategory),
      (∀ T, (g T).Url = T.Url ∧ (g T).Name = T.Name) ∧
      (∀ i j, subAt (subCatCollOnHTML cats el).categories i j
        = if (i, j) = ptr then (subAt cats i j).map g else subAt cats i j) ∧
      ((Contains el.url loadMoreMarker = true ∧ ∀ T, (g T).LoadMoreUrl = T.LoadMoreUrl) ∨
       (Contains el.url loadMoreMarker = false ∧ search false el.url cats = some ptr)) := by
  by_cases hkind : Contains el.url loadMoreMarker = true
  · cases hkey : findLoadMoreUrlPrefix el.url with
    | error msg =>
      left
      intro i j
      rw [handler_key_fatal cats el msg hkind hkey]
    | ok key =>
      cases hs : search true key cats with
      | none =>
        left
        intro i j
        rw [handler_unmatched cats el key (by simp only [hkind, if_true, hkey])
          (by rw [hkind]; exact hs)]
      | some ptr =>
        right
        refine ⟨ptr, appendProducts el, fun T => ⟨rfl, rfl⟩, fun i j => ?_,
          Or.inl ⟨hkind, fun T => rfl⟩⟩
        rw [handler_loadMore_matched cats el key ptr hkind hkey hs]
        exact subAt_modifySub _ _ _ _ _
  · have hkind2 : Contains el.url loadMoreMarker = false := by simpa using hkind
    cases hs : search false el.url cats with
    | none =>
      left
      intro i j
      rw [handler_unmatched cats el el.url
        (by simp only [hkind2, Bool.false_eq_true, if_false]) (by rw [hkind2]; exact hs)]
    | some ptr =>
      right
      obtain ⟨g, hg, hsub⟩ := handler_listing_subAt cats el ptr hkind2 hs
      exact ⟨ptr, g, fun T => ⟨(hg T).2.2, (hg T).2.1⟩, hsub, Or.inr ⟨hkind2, rfl⟩⟩

/-- The handler keeps the listing URL at every path. -/
theorem handler_keeps_urls (cats : List Category) (el : Response) (i j : Nat) :
    (subAt (subCatCollOnHTML cats el).categories i j).map (fun T => T.Url)
      = (subAt cats i j).map (fun T => T.Url) := by
  rcases handler_subAt_cases cats el with hsame | ⟨ptr, g, hg, hsub, _⟩
  · rw [hsame]
  · rw [hsub]
    by_cases hij : (i, j) = ptr
    · have hcomp : ((fun T : SubCategory => T.Url) ∘ g) = (fun T => T.Url) :=
        funext (fun T => (hg T).1)
      simp only [hij, if_true, Option.map_map, hcomp]
    · simp only [hij, if_false]

/-- A response that is not a listing response matched to the path `(i, j)` keeps
the load-more prefix (and the URL) of the sub-category at that path. -/
theorem handler_keeps_prefix (cats : List Category) (el : Response) (i j : Nat)
    (S : SubCategory) (hS : subAt cats i j = some S)
    (h : Contains el.url loadMoreMarker = true ∨ search false el.url cats ≠ some (i, j)) :
    ∃ S2, subAt (subCatCollOnHTML cats el).categories i j = some S2 ∧ S2.Url = S.Url ∧
      S2.LoadMoreUrl = S.LoadMoreUrl := by
  rcases handler_subAt_cases cats el with hsame | ⟨ptr, g, hg, hsub, hcase⟩
  · exact ⟨S, by rw [hsame, hS], rfl, rfl⟩
  · by_cases hij : (i, j) = ptr
    · rcases hcase with ⟨_, hlm⟩ | ⟨hkind, hs⟩
      · refine ⟨g S, ?_, (hg S).1, hlm S⟩
        rw [hsub, hS]
        simp [hij]
      · exfalso
        rcases h with h | h
        · rw [hkind] at h
          cases h
        · exact h (by rw [hs, hij])
    · refine ⟨S, ?_, rfl, rfl⟩
      rw [hsub, hS]
      simp only [hij, if_false]

/-- The search for a listing URL depends on the URLs at the paths only. -/
theorem search_url_congr (key : Str) (cats cats2 : List Category)
    (hurls : ∀ i j, (subAt cats2 i j).map (fun T => T.Url)
      = (subAt cats i j).map (fun T => T.Url)) :
    search false key cats2 = search false key cats := by
  have hto : ∀ (a b : List Category),
      (∀ i j, (subAt b i j).map (fun T => T.Url) = (subAt a i j).map (fun T => T.Url)) →
      ∀ i j T, subAt a i j = some T → ∃ T2, subAt b i j = some T2 ∧ T2.Url = T.Url := by
    intro a b hab i j T hT
    have h := hab i j
    rw [hT] at h
    cases hb : subAt b i j with
    | none =>
      rw [hb] at h
      cases h
    | some T2 =>
      rw [hb] at h
      exact ⟨T2, rfl, by simpa using h⟩
  cases hs : search false key cats with
  | none =>
    cases hs2 : search false key cats2 with
    | none => rfl
    | some q =>
      obtain ⟨qi, qj⟩ := q
      obtain ⟨⟨T2, hT2, hk2⟩, _⟩ := search_some false key cats2 qi qj hs2
      obtain ⟨T, hT, hU⟩ := hto cats2 cats (fun i j => (hurls i j).symm) qi qj T2 hT2
      have hk : subUrl false T = key := by
        simp only [subUrl, Bool.false_eq_true, if_false] at hk2 ⊢
        rw [hU]
        exact hk2
      exact absurd hk (search_none false key cats hs qi qj T hT)
  | some q =>
    obtain ⟨qi, qj⟩ := q
    obtain ⟨⟨T, hT, hk⟩, hmin⟩ := search_some false key cats qi qj hs
    obtain ⟨T2, hT2, hU2⟩ := hto cats cats2 hurls qi qj T hT
    refine search_first false key cats2 qi qj T2 hT2 ?_ ?_
    · simp only [subUrl, Bool.false_eq_true, if_false] at hk ⊢
      rw [hU2]
      exact hk
    · intro i2 j2 S2 hlt hS2 hk2
      obtain ⟨S1, hS1, hU1⟩ := hto cats2 cats (fun i j => (hurls i j).symm) i2 j2 S2 hS2
      refine hmin i2 j2 S1 hlt hS1 ?_
      simp only [subUrl, Bool.false_eq_true, if_false] at hk2 ⊢
      rw [hU1]
      exact hk2

theorem demoTree_paths (i j : Nat) (S : SubCategory) (h : subAt demoTree i j = some S) :
    (i = 0 ∧ j = 0 ∧ S = demoRolls) ∨ (i = 0 ∧ j = 1 ∧ S = demoBuns) := by
  match i, j with
  | 0, 0 =>
    simp [subAt, demoTree] at h
    exact Or.inl ⟨rfl, rfl, h.symm⟩
  | 0, 1 =>
    simp [subAt, demoTree] at h
    exact Or.inr ⟨rfl, rfl, h.symm⟩
  | 0, _ + 2 => simp [subAt, demoTree] at h
  | _ + 1, _ => simp [subAt, demoTree] at h

/-! ## The claims -/

/-- C1: `findLoadMoreUrlPrefix s` succeeds exactly when the marker `"&start="`
occurs exactly once in `s`; it then returns the part `p` of `s` before the
marker, with `s = p ++ "&start=" ++ rest` and no marker in `p` or in `rest`;
with no marker or with two or more markers the run is ended by `log.Fatal`. -/
theorem findLoadMoreUrlPrefix_spec (s : Str) :
    ((∃ p, findLoadMoreUrlPrefix s = .ok p) ↔ occurrences offsetMarker s = 1) ∧
    (∀ p, findLoadMoreUrlPrefix s = .ok p →
      ∃ rest, s = p ++ offsetMarker ++ rest ∧
        occurrences offsetMarker p = 0 ∧ occurrences offsetMarker rest = 0) ∧
    (occurrences offsetMarker s ≠ 1 →
      findLoadMoreUrlPrefix s = .error ("Couldn't parse load more url: %s".toList ++ s)) := by
  rcases findLoadMoreUrlPrefix_cases s with ⟨hne, herr⟩ | ⟨hone, p, rest, hok, hs, hp, hr⟩
  · refine ⟨⟨?_, fun h => absurd h hne⟩, ?_, fun _ => herr⟩
    · rintro ⟨p, hp⟩
      rw [herr] at hp
      cases hp
    · intro p hp
      rw [herr] at hp
      cases hp
  · refine ⟨⟨fun _ => hone, fun _ => ⟨p, hok⟩⟩, ?_, fun h => absurd hone h⟩
    intro q hq
    rw [hok] at hq
    cases hq
    exact ⟨rest, hs, hp, hr⟩

/-- C1 at the URL of the specification, at a URL without marker and at a URL
with two markers. -/
theorem findLoadMoreUrlPrefix_spec_witness :
    findLoadMoreUrlPrefix "https://x/y?a=1&start=20&sz=10".toList
      = .ok "https://x/y?a=1".toList ∧
    (∃ rest, "https://x/y?a=1&start=20&sz=10".toList
        = "https://x/y?a=1".toList ++ offsetMarker ++ rest ∧
      occurrences offsetMarker "https://x/y?a=1".toList = 0 ∧
      occurrences offsetMarker rest = 0) ∧
    findLoadMoreUrlPrefix "https://x/y?a=1".toList
      = .error "Couldn't parse load more url: %shttps://x/y?a=1".toList ∧
    findLoadMoreUrlPrefix "u&start=1&start=2".toList
      = .error "Couldn't parse load more url: %su&start=1&start=2".toList :=
  ⟨by decide,
   (findLoadMoreUrlPrefix_spec "https://x/y?a=1&start=20&sz=10".toList).2.1 _ (by decide),
   (findLoadMoreUrlPrefix_spec "https://x/y?a=1".toList).2.2 (by decide),
   (findLoadMoreUrlPrefix_spec "u&start=1&start=2".toList).2.2 (by decide)⟩

/-- C2: in a tree whose listing URLs are pairwise distinct, a listing response
whose URL is the listing URL of the sub-category `S` at path `(i, j)` makes the
product list of `S` its old list followed by the products of the tiles in
document order, and leaves the product list at every other path as it was. -/
theorem listing_response_appends_to_own_subcategory (cats : List Category) (el : Response)
    (i j : Nat) (S : SubCategory)
    (hdistinct : ∀ i1 j1 i2 j2 S1 S2, subAt cats i1 j1 = some S1 → subAt cats i2 j2 = some S2 →
      S1.Url = S2.Url → i1 = i2 ∧ j1 = j2)
    (hkind : Contains el.url loadMoreMarker = false)
    (hS : subAt cats i j = some S) (hurl : S.Url = el.url) :
    (∃ S2, subAt (subCatCollOnHTML cats el).categories i j = some S2 ∧
      S2.Products = S.Products ++ el.tiles.map tileProduct) ∧
    (∀ i2 j2, (i2, j2) ≠ (i, j) →
      (subAt (subCatCollOnHTML cats el).categories i2 j2).map (fun T => T.Products)
        = (subAt cats i2 j2).map (fun T => T.Products)) := by
  have hs : search false el.url cats = some (i, j) := by
    refine search_first false el.url cats i j S hS (by simpa [subUrl] using hurl) ?_
    intro i2 j2 S2 hlt hS2 hk
    have hk2 : S2.Url = S.Url := by
      rw [hurl]
      simpa [subUrl] using hk
    obtain ⟨h1, h2⟩ := hdistinct i2 j2 i j S2 S hS2 hS hk2
    omega
  obtain ⟨g, hg, hsub⟩ := handler_listing_subAt cats el (i, j) hkind hs
  refine ⟨⟨g S, ?_, ?_⟩, ?_⟩
  · rw [hsub, hS]
    simp
  · rw [(hg S).1, scrapeProductTiles_eq_map]
  · intro i2 j2 hne
    rw [hsub]
    simp only [hne, if_false]

/-- C2 on the demo tree and a listing response for its second sub-category. -/
theorem listing_response_appends_to_own_subcategory_witness :
    (∃ S2, subAt (subCatCollOnHTML demoTree
        { demoListingBuns with tiles := [demoTile] }).categories 0 1 = some S2 ∧
      S2.Products = demoBuns.Products ++ [demoTile].map tileProduct) ∧
    (∀ i2 j2, (i2, j2) ≠ (0, 1) →
      (subAt (subCatCollOnHTML demoTree
        { demoListingBuns with tiles := [demoTile] }).categories i2 j2).map
          (fun T => T.Products)
        = (subAt demoTree i2 j2).map (fun T => T.Products)) :=
  listing_response_appends_to_own_subcategory demoTree
    { demoListingBuns with tiles := [demoTile] } 0 1 demoBuns
    (by
      intro i1 j1 i2 j2 S1 S2 h1 h2 hu
      rcases demoTree_paths _ _ _ h1 with ⟨rfl, rfl, rfl⟩ | ⟨rfl, rfl, rfl⟩ <;>
        rcases demoTree_paths _ _ _ h2 with ⟨rfl, rfl, rfl⟩ | ⟨rfl, rfl, rfl⟩ <;>
        first
          | exact ⟨rfl, rfl⟩
          | exact absurd hu (by decide))
    (by decide) (by decide) (by decide)

/-- C3: a response whose key (its URL for a listing response, the reduced prefix
of its URL for a load-more response) is the key of no sub-category is discarded:
the handler prints the diagnostic naming the URL and returns, the run is not
ended, nothing is dispatched, and the tree is left exactly as it was. -/
theorem unmatched_response_is_discarded (cats : List Category) (el : Response) (key : Str)
    (hkey : (if Contains el.url loadMoreMarker = true then findLoadMoreUrlPrefix el.url
              else .ok el.url) = .ok key)
    (hno : ∀ i j S, subAt cats i j = some S →
      subUrl (Contains el.url loadMoreMarker) S ≠ key) :
    subCatCollOnHTML cats el
      = { categories := cats,
          printed := ["Couldn't find subcategory in categories\nVisiting url: ".toList
                        ++ el.url ++ "\n".toList],
          visits := [], fatal := none } := by
  apply handler_unmatched cats el key hkey
  cases hs : search (Contains el.url loadMoreMarker) key cats with
  | none => rfl
  | some q =>
    obtain ⟨qi, qj⟩ := q
    obtain ⟨⟨T, hT, hTk⟩, _⟩ := search_some _ key cats qi qj hs
    exact absurd hTk (hno qi qj T hT)

/-- C3 on the demo tree: a listing response for an unknown URL, and a load-more
response whose prefix no sub-category stores. -/
theorem unmatched_response_is_discarded_witness :
    subCatCollOnHTML demoTree { demoListing with url := "https://shop/cakes".toList }
      = { categories := demoTree,
          printed := ["Couldn't find subcategory in categories\nVisiting url: ".toList
                        ++ "https://shop/cakes".toList ++ "\n".toList],
          visits := [], fatal := none } ∧
    subCatCollOnHTML demoTree demoLoadMore
      = { categories := demoTree,
          printed := ["Couldn't find subcategory in categories\nVisiting url: ".toList
                        ++ demoLoadMore.url ++ "\n".toList],
          visits := [], fatal := none } :=
  ⟨unmatched_response_is_discarded demoTree
      { demoListing with url := "https://shop/cakes".toList } "https://shop/cakes".toList
      (by decide)
      (by
        intro i j S hS
        rcases demoTree_paths _ _ _ hS with ⟨rfl, rfl, rfl⟩ | ⟨rfl, rfl, rfl⟩ <;> decide),
   unmatched_response_is_discarded demoTree demoLoadMore demoPrefix
      (by decide)
      (by
        intro i j S hS
        rcases demoTree_paths _ _ _ hS with ⟨rfl, rfl, rfl⟩ | ⟨rfl, rfl, rfl⟩ <;> decide)⟩

/-- C4: a results counter with three tokens whose first and third tokens are
not integers does not stop the handler: on the demo tree, with the counter
`"x of y"`, the load-more prefix of the matched sub-category is stored, and
with an empty load-more attribute the run is ended by `log.Fatal`.  A counter
with fewer than three tokens (`"garbage"`) does return without either. -/
theorem counter_tokens_not_numeric_continue :
    Split "x of y".toList " ".toList = ["x".toList, "of".toList, "y".toList] ∧
    (Atoi "x".toList).2 = false ∧ (Atoi "y".toList).2 = false ∧
    (subAt demoTree 0 0).map (fun T => T.LoadMoreUrl) = some [] ∧
    (subAt (subCatCollOnHTML demoTree
        { demoListing with resultsCounter := "x of y".toList }).categories 0 0).map
          (fun T => T.LoadMoreUrl) = some demoPrefix ∧
    (subCatCollOnHTML demoTree
        { demoListing with resultsCounter := "x of y".toList }).fatal = none ∧
    (subCatCollOnHTML demoTree
        { demoListing with resultsCounter := "x of y".toList, moreResultsUrl := [] }).fatal
      = some "Couldn't parse load more url: %s".toList ∧
    (subAt (subCatCollOnHTML demoTree
        { demoListing with resultsCounter := "garbage".toList }).categories 0 0).map
          (fun T => T.LoadMoreUrl) = some [] ∧
    (subCatCollOnHTML demoTree
        { demoListing with resultsCounter := "garbage".toList }).fatal = none := by
  refine ⟨by decide, by decide, by decide, by decide, by decide, by decide, by decide,
    by decide, by decide⟩

/-- C5: on the demo listing response the counter gives page size 24 and total
120 and the load-more prefix is stored, yet the handler dispatches no fetch:
the guard of the continuation loop is `false && ...`, so its body, which would
build the URL `prefix + "&start=24&sz=24"` first, never runs. -/
theorem continuation_loop_dispatches_nothing :
    Atoi ((Split demoListing.resultsCounter " ".toList).getD 0 []) = (24, true) ∧
    Atoi ((Split demoListing.resultsCounter " ".toList).getD 2 []) = (120, true) ∧
    findLoadMoreUrlPrefix demoListing.moreResultsUrl = .ok demoPrefix ∧
    (subCatCollOnHTML demoTree demoListing).categories = demoTreeStored ∧
    (subCatCollOnHTML demoTree demoListing).fatal = none ∧
    (subCatCollOnHTML demoTree demoListing).visits = [] ∧
    demoPrefix ++ loadMoreSuffix 24 24
      = "https://shop/demandware.store/more?cgid=bread&start=24&sz=24".toList :=
  ⟨by decide, by decide, by decide, by decide, by decide,
   handler_visits_nil demoTree demoListing, by decide⟩

/-- C6: the records `writeToCsv` writes are the header of 12 columns followed
by the rows of the tree in depth-first order Category, SubCategory, Product, one
per product; their number is the sum over all sub-categories of the lengths of
their product lists, and every row has 12 fields, the first three being the
name of the owning category and the name and URL of the owning sub-category. -/
theorem writeToCsv_rows (cats : List Category) :
    writeToCsv cats = csvHeader :: dataRows cats ∧
    csvHeader.length = 12 ∧
    (writeToCsv cats).tail.length = productCount cats ∧
    ∀ row ∈ (writeToCsv cats).tail,
      ∃ cat ∈ cats, ∃ subCat ∈ cat.SubCategories, ∃ prod ∈ subCat.Products,
        row = csvRecord cat subCat prod ∧ row.length = 12 ∧
        row.take 3 = [cat.Name, subCat.Name, subCat.Url] := by
  have hw : writeToCsv cats = csvHeader :: dataRows cats := by
    simp [writeToCsv, foldl_categories]
  refine ⟨hw, rfl, ?_, ?_⟩
  · rw [hw, List.tail_cons, length_dataRows]
  · intro row hrow
    rw [hw, List.tail_cons] at hrow
    simp only [dataRows, List.mem_flatMap, List.mem_map] at hrow
    obtain ⟨cat, hcat, subCat, hsub, prod, hprod, hrec⟩ := hrow
    exact ⟨cat, hcat, subCat, hsub, prod, hprod, hrec.symm, by rw [← hrec]; rfl,
      by rw [← hrec]; rfl⟩

/-- C7: discovery builds, in document order, one category for every block whose
trimmed name is not "Destaques", with the trimmed block name as its name and
one sub-category per link of the block, in order (trimmed link text as name,
the absolute URL of the href as listing URL); no category of the tree has the
name, or the trimmed name, "Destaques". -/
theorem discover_excludes_destaques (absoluteURL : Str → Str) (blocks : List NavBlock) :
    discover absoluteURL blocks
      = (blocks.filter (fun el => decide (TrimSpace el.categoryInfo ≠ destaques))).map
          (fun el =>
            { Name := TrimSpace el.categoryInfo,
              SubCategories := el.links.map (fun sel =>
                { Name := TrimSpace sel.text, Url := absoluteURL sel.href,
                  LoadMoreUrl := [], Products := [] }) }) ∧
    ∀ c ∈ discover absoluteURL blocks, c.Name ≠ destaques ∧ TrimSpace c.Name ≠ destaques := by
  have hd : discover absoluteURL blocks
      = (blocks.filter (fun el => decide (TrimSpace el.categoryInfo ≠ destaques))).map
          (blockCategory absoluteURL) := by
    simp [discover, foldl_mainCollOnHTML]
  refine ⟨hd, ?_⟩
  intro c hc
  rw [hd] at hc
  simp only [List.mem_map, List.mem_filter, decide_eq_true_eq] at hc
  obtain ⟨el, ⟨_, hne⟩, hel⟩ := hc
  subst hel
  exact ⟨hne, by simpa [blockCategory, TrimSpace_idempotent] using hne⟩

/-- C6 on the demo tree after the listing response of its first sub-category:
one data row, starting with the names of its owners and the listing URL. -/
theorem writeToCsv_rows_witness :
    writeToCsv demoTreeStored
      = [csvHeader,
         ["Bread".toList, "Rolls".toList, "https://shop/rolls".toList, "Roll".toList,
          "/p/1".toList, [], [], [], "1,00".toList, [], [], []]] ∧
    productCount demoTreeStored = 1 :=
  ⟨(writeToCsv_rows demoTreeStored).1.trans (by decide), by decide⟩

/-- C7 on a document with a featured block and a block with padded names. -/
theorem discover_excludes_destaques_witness :
    discover (fun href => "https://shop".toList ++ href)
        [{ categoryInfo := " Destaques\n".toList,
           links := [{ text := "Promo".toList, href := "/promo".toList }] },
         { categoryInfo := "\n  Bread ".toList,
           links := [{ text := " Rolls ".toList, href := "/rolls".toList },
                     { text := "Buns".toList, href := "/buns".toList }] }]
      = demoTree :=
  (discover_excludes_destaques _ _).1.trans (by decide)

/-- C8, as stated, fails when two sub-categories store the same load-more
prefix: the demo tree reaches that state by its two listing responses, the
load-more response then has the prefix of the second sub-category too, and its
product goes to the first sub-category while the list of the second stays empty. -/
theorem loadMore_response_shared_prefix_counterexample :
    handleResponses demoTree [demoListing, demoListingBuns] = (demoTreeShared, none) ∧
    Contains demoLoadMore.url loadMoreMarker = true ∧
    findLoadMoreUrlPrefix demoLoadMore.url = .ok demoPrefix ∧
    (subAt demoTreeShared 0 1).map (fun T => T.LoadMoreUrl) = some demoPrefix ∧
    (subAt demoTreeShared 0 1).map (fun T => T.Products) = some [] ∧
    (subAt (subCatCollOnHTML demoTreeShared demoLoadMore).categories 0 1).map
        (fun T => T.Products) = some [] ∧
    (subAt (subCatCollOnHTML demoTreeShared demoLoadMore).categories 0 0).map
        (fun T => T.Products) = some [tileProduct demoTile, tileProduct demoTile] ∧
    scrapeProductTiles demoLoadMore = [tileProduct demoTile] := by
  refine ⟨by decide, by decide, by decide, by decide, by decide, by decide, by decide,
    by decide⟩

/-- C8, amended: a load-more response whose reduced prefix is the load-more
prefix of the sub-category `S` at path `(i, j)`, `S` being the first in tree
order that stores this prefix, appends the products of its tiles to the list of
`S` and stops: nothing is printed or dispatched, the run is not ended, every
other sub-category and the load-more prefix of `S` are as before, and the
results counter and the load-more attribute of the response are not used. -/
theorem loadMore_response_appends_and_stops (cats : List Category) (el : Response)
    (key : Str) (i j : Nat) (S : SubCategory)
    (hkind : Contains el.url loadMoreMarker = true)
    (hkey : findLoadMoreUrlPrefix el.url = .ok key)
    (hS : subAt cats i j = some S) (hSkey : S.LoadMoreUrl = key)
    (hfirst : ∀ i2 j2 S2, (i2 < i ∨ (i2 = i ∧ j2 < j)) → subAt cats i2 j2 = some S2 →
      S2.LoadMoreUrl ≠ key) :
    subAt (subCatCollOnHTML cats el).categories i j
      = some { S with Products := S.Products ++ el.tiles.map tileProduct } ∧
    (∀ i2 j2, (i2, j2) ≠ (i, j) →
      subAt (subCatCollOnHTML cats el).categories i2 j2 = subAt cats i2 j2) ∧
    (subCatCollOnHTML cats el).printed = [] ∧
    (subCatCollOnHTML cats el).visits = [] ∧
    (subCatCollOnHTML cats el).fatal = none ∧
    ∀ counter more, subCatCollOnHTML cats
        { el with resultsCounter := counter, moreResultsUrl := more }
      = subCatCollOnHTML cats el := by
  have hs : search true key cats = some (i, j) :=
    search_first true key cats i j S hS (by simpa [subUrl] using hSkey)
      (fun i2 j2 S2 hlt hS2 => by simpa [subUrl] using hfirst i2 j2 S2 hlt hS2)
  have hres := handler_loadMore_matched cats el key (i, j) hkind hkey hs
  refine ⟨?_, ?_, ?_, ?_, ?_, ?_⟩
  · rw [hres]
    simp only [subAt_modifySub, hS, if_true, Option.map_some', appendProducts,
      scrapeProductTiles_eq_map]
  · intro i2 j2 hne
    rw [hres]
    simp only [subAt_modifySub, hne, if_false]
  · rw [hres]
  · rw [hres]
  · rw [hres]
  · intro counter more
    rw [hres]
    exact handler_loadMore_matched cats _ key (i, j) hkind hkey hs

/-- C8, amended, on the tree with the shared prefix: the first sub-category is
the one that receives the product. -/
theorem loadMore_response_appends_and_stops_witness :
    subAt (subCatCollOnHTML demoTreeShared demoLoadMore).categories 0 0
      = some { demoRolls with
                LoadMoreUrl := demoPrefix,
                Products := [tileProduct demoTile] ++ [demoTile].map tileProduct } ∧
    (∀ i2 j2, (i2, j2) ≠ (0, 0) →
      subAt (subCatCollOnHTML demoTreeShared demoLoadMore).categories i2 j2
        = subAt demoTreeShared i2 j2) ∧
    (subCatCollOnHTML demoTreeShared demoLoadMore).printed = [] ∧
    (subCatCollOnHTML demoTreeShared demoLoadMore).visits = [] ∧
    (subCatCollOnHTML demoTreeShared demoLoadMore).fatal = none ∧
    ∀ counter more, subCatCollOnHTML demoTreeShared
        { demoLoadMore with resultsCounter := counter, moreResultsUrl := more }
      = subCatCollOnHTML demoTreeShared demoLoadMore :=
  loadMore_response_appends_and_stops demoTreeShared demoLoadMore demoPrefix 0 0
    { demoRolls with LoadMoreUrl := demoPrefix, Products := [tileProduct demoTile] }
    (by decide) (by decide) (by decide) (by decide)
    (by
      intro i2 j2 S2 hlt
      rcases hlt with hlt | ⟨_, hlt⟩ <;> exact absurd hlt (Nat.not_lt_zero _))

/-- C9: a listing response matched to the sub-category at `ptr`, whose counter
has at least three tokens with integer first and third tokens and whose
load-more attribute contains the marker exactly once, stores the prefix
reduction of the attribute as the load-more prefix of that sub-category, leaves
every other sub-category as it was, and does not end the run. -/
theorem counter_parsed_stores_prefix (cats : List Category) (el : Response) (ptr : Nat × Nat)
    (hkind : Contains el.url loadMoreMarker = false)
    (hs : search false el.url cats = some ptr)
    (hlen : 3 ≤ (Split el.resultsCounter " ".toList).length)
    (hpageSize : (Atoi ((Split el.resultsCounter " ".toList).getD 0 [])).2 = true)
    (htotal : (Atoi ((Split el.resultsCounter " ".toList).getD 2 [])).2 = true)
    (hmarker : occurrences offsetMarker el.moreResultsUrl = 1) :
    ∃ p, findLoadMoreUrlPrefix el.moreResultsUrl = .ok p ∧
      (∃ S2, subAt (subCatCollOnHTML cats el).categories ptr.1 ptr.2 = some S2 ∧
        S2.LoadMoreUrl = p) ∧
      (∀ i j, (i, j) ≠ ptr →
        subAt (subCatCollOnHTML cats el).categories i j = subAt cats i j) ∧
      (subCatCollOnHTML cats el).printed = [] ∧
      (subCatCollOnHTML cats el).fatal = none := by
  obtain ⟨p, hp⟩ : ∃ p, findLoadMoreUrlPrefix el.moreResultsUrl = .ok p := by
    rcases findLoadMoreUrlPrefix_cases el.moreResultsUrl with ⟨hne, _⟩ | ⟨_, p, _, hp, _⟩
    · exact absurd hmarker hne
    · exact ⟨p, hp⟩
  have hlen2 : ¬ (Split el.resultsCounter " ".toList).length < 3 := by omega
  obtain ⟨hcat, _, hfatal⟩ := handler_listing_stored cats el ptr p hkind hs hlen2 hp
  obtain ⟨pi, pj⟩ := ptr
  obtain ⟨⟨T, hT, _⟩, _⟩ := search_some false el.url cats pi pj hs
  refine ⟨p, hp, ⟨storeLoadMoreUrl p (appendProducts el T), ?_, rfl⟩, ?_, ?_, hfatal⟩
  · rw [hcat]
    simp only [subAt_modifySub, hT, if_true, Option.map_some']
  · intro i j hne
    rw [hcat]
    simp only [subAt_modifySub, hne, if_false]
  · simp only [subCatCollOnHTML, hkind, hs, hlen2, hp, hpageSize, htotal, if_true, if_false,
      Bool.false_eq_true, List.append_nil]

/-- C9 on the demo listing response: the counter `"24 of 120 results"` gives
page size 24 and total 120, and the prefix of the load-more URL is stored. -/
theorem counter_parsed_stores_prefix_witness :
    Atoi ((Split "24 of 120 results".toList " ".toList).getD 0 []) = (24, true) ∧
    Atoi ((Split "24 of 120 results".toList " ".toList).getD 2 []) = (120, true) ∧
    ∃ p, findLoadMoreUrlPrefix demoListing.moreResultsUrl = .ok p ∧
      (∃ S2, subAt (subCatCollOnHTML demoTree demoListing).categories 0 0 = some S2 ∧
        S2.LoadMoreUrl = p) ∧
      (∀ i j, (i, j) ≠ (0, 0) →
        subAt (subCatCollOnHTML demoTree demoListing).categories i j = subAt demoTree i j) ∧
      (subCatCollOnHTML demoTree demoListing).printed = [] ∧
      (subCatCollOnHTML demoTree demoListing).fatal = none :=
  ⟨by decide, by decide,
   counter_parsed_stores_prefix demoTree demoListing (0, 0) (by decide) (by decide)
     (by decide) (by decide) (by decide) (by decide)⟩

/-- C10, as stated, fails: after the listing response of `demoRolls` its
load-more prefix is the non-empty `demoPrefix`; a further listing response for
the same URL with another load-more attribute overwrites it. -/
theorem prefix_overwritten_counterexample :
    (subCatCollOnHTML demoTree demoListing).categories = demoTreeStored ∧
    (subAt demoTreeStored 0 0).map (fun T => T.LoadMoreUrl) = some demoPrefix ∧
    demoPrefix ≠ [] ∧
    (subAt (subCatCollOnHTML demoTreeStored
        { demoListing with moreResultsUrl := "https://shop/other&start=48".toList }).categories
        0 0).map (fun T => T.LoadMoreUrl) = some "https://shop/other".toList ∧
    (subAt (handleResponses demoTree
        [demoListing,
         { demoListing with moreResultsUrl := "https://shop/other&start=48".toList }]).1
        0 0).map (fun T => T.LoadMoreUrl) = some "https://shop/other".toList := by
  refine ⟨by decide, by decide, by decide, by decide, by decide⟩

/-- C10, amended: over every sequence of responses none of which is a listing
response matched to the sub-category `S` at path `(i, j)`, the load-more prefix
of `S`, whatever its value, stays what it was.  A listing response is matched to
`S` when the search for its URL ends at that path, that is when `S` is the first
sub-category in tree order with that listing URL; hence load-more responses,
and listing responses for a URL other than the listing URL of `S`, are never
matched to `S` and always leave its prefix. -/
theorem prefix_kept_by_other_responses (rs : List Response) :
    ∀ (cats : List Category) (i j : Nat) (S : SubCategory), subAt cats i j = some S →
      (∀ el ∈ rs, Contains el.url loadMoreMarker = true ∨
        search false el.url cats ≠ some (i, j)) →
      (∃ S2, subAt (handleResponses cats rs).1 i j = some S2 ∧ S2.Url = S.Url ∧
        S2.LoadMoreUrl = S.LoadMoreUrl) ∧
      ∀ el ∈ rs, el.url ≠ S.Url → search false el.url cats ≠ some (i, j) := by
  induction rs with
  | nil =>
    intro cats i j S hS _
    exact ⟨⟨S, hS, rfl, rfl⟩, fun el hel => absurd hel (List.not_mem_nil el)⟩
  | cons el rest ih =>
    intro cats i j S hS hall
    refine ⟨?_, ?_⟩
    · obtain ⟨S1, hS1, hU1, hL1⟩ :=
        handler_keeps_prefix cats el i j S hS (hall el (List.mem_cons_self _ _))
      cases hf : (subCatCollOnHTML cats el).fatal with
      | some msg =>
        simp only [handleResponses, hf]
        exact ⟨S1, hS1, hU1, hL1⟩
      | none =>
        simp only [handleResponses, hf]
        obtain ⟨⟨S2, hS2, hU2, hL2⟩, _⟩ := ih _ i j S1 hS1
          (fun r hr => by
            rw [search_url_congr r.url cats _ (handler_keeps_urls cats el)]
            exact hall r (List.mem_cons_of_mem _ hr))
        exact ⟨S2, hS2, hU2.trans hU1, hL2.trans hL1⟩
    · intro r _ hne hs
      obtain ⟨⟨T, hT, hk⟩, _⟩ := search_some false r.url cats i j hs
      rw [hS] at hT
      cases hT
      exact hne (by simpa [subUrl] using hk.symm)

/-- C10, amended, on the demo tree after the listing response of its first
sub-category: the stored prefix survives a load-more response for that very
prefix, the listing response of the other sub-category and an unmatched
listing response. -/
theorem prefix_kept_by_other_responses_witness :
    (∃ S2, subAt (handleResponses demoTreeStored
        [demoLoadMore, demoListingBuns,
         { demoListing with url := "https://shop/cakes".toList }]).1 0 0 = some S2 ∧
      S2.Url = "https://shop/rolls".toList ∧ S2.LoadMoreUrl = demoPrefix) ∧
    ∀ el ∈ [demoLoadMore, demoListingBuns,
            { demoListing with url := "https://shop/cakes".toList }],
      el.url ≠ "https://shop/rolls".toList →
        search false el.url demoTreeStored ≠ some (0, 0) :=
  prefix_kept_by_other_responses
    [demoLoadMore, demoListingBuns, { demoListing with url := "https://shop/cakes".toList }]
    demoTreeStored 0 0
    { demoRolls with LoadMoreUrl := demoPrefix, Products := [tileProduct demoTile] }
    (by decide) (by decide)

end ShopScraper
